import Mathlib

/-!
Verification development for the pluggable bug-fixer agent.

The agent watches a repository's issue tracker, asks a language model for a
fix proposal, stores the proposal in an in-memory map keyed by id, and, on
human approval, applies the proposed code changes to a working tree, runs a
lint/build/test validation gate and opens a pull request.

The definitions below are a shallow embedding of the TypeScript sources:

  * string manipulation used by `BugFixerAgent.applyChanges`
    (`String.prototype.includes` and `String.prototype.replace` with a
    string pattern, including ECMAScript dollar substitution in the
    replacement text);
  * `TestRunnerService.runLint` / `runBuild` / `runTests` and the
    failure-marker scan `hasTestFailures`;
  * the `BugFixerAgent.runTests` validation gate (lint, then build, then
    test, short-circuiting on the first failing stage);
  * `BugFixerAgent.applyChanges` over an explicit file-system map;
  * the proposal store with `approveProposal`, `rejectProposal`,
    `getProposal`, `getPendingProposals`, and the HTTP route
    `POST /validate/:proposalId/approve`;
  * `LLMService.analyzeIssue`'s confidence gate and the store step of
    `BugFixerAgent.analyzeSingleIssue`;
  * `BugFixerAgent.gatherRepositoryContext`'s file-count cap and
    truncation policy.

Strings are modelled as `List Char`; external collaborators (git, GitHub,
mail transport, the subprocess runner, the language model) are modelled as
environment records giving each call's outcome.
-/

namespace BugFixer

/-! ## Strings: first-occurrence search and ECMAScript replacement

`String.prototype.includes(needle)` and the search half of
`String.prototype.replace(needle, replacement)` both locate the first
occurrence of `needle`.  `splitFirst needle hay` returns
`some (pre, post)` with `hay = pre ++ needle ++ post` for the earliest
such decomposition, and `none` when `needle` does not occur. -/

def splitFirst (needle : List Char) : List Char → Option (List Char × List Char)
  | [] => if needle = [] then some ([], []) else none
  | c :: rest =>
    if needle.isPrefixOf (c :: rest) then
      some ([], (c :: rest).drop needle.length)
    else
      match splitFirst needle rest with
      | some (pre, post) => some (c :: pre, post)
      | none => none

/-- Model of JavaScript `hay.includes(needle)`. -/
def jsIncludes (needle hay : List Char) : Bool :=
  (splitFirst needle hay).isSome

/-- ECMAScript `GetSubstitution` for a *string* search pattern (no capture
groups): in the replacement template, `$$` yields `$`, `$&` yields the
matched text, a backtick after `$` yields the text before the match, `$'`
yields the text after the match, and any other `$`-sequence is kept
literally. -/
def substDollar (before matched after : List Char) : List Char → List Char
  | [] => []
  | c :: r =>
    if c = '$' then
      match r with
      | [] => ['$']
      | d :: r' =>
        if d = '$' then '$' :: substDollar before matched after r'
        else if d = '&' then matched ++ substDollar before matched after r'
        else if d = '\x60' then before ++ substDollar before matched after r'
        else if d = '\'' then after ++ substDollar before matched after r'
        else '$' :: substDollar before matched after (d :: r')
    else c :: substDollar before matched after r

/-- Model of JavaScript `hay.replace(needle, repl)` with string arguments:
replace the first occurrence of `needle` by the dollar-substituted `repl`;
return `hay` unchanged when `needle` does not occur. -/
def jsReplace (needle repl hay : List Char) : List Char :=
  match splitFirst needle hay with
  | some (pre, post) => pre ++ substDollar pre needle post repl ++ post
  | none => hay

theorem splitFirst_eq_some (needle : List Char) :
    ∀ hay pre post, splitFirst needle hay = some (pre, post) →
      hay = pre ++ needle ++ post ∧
        ∀ p q, hay = p ++ needle ++ q → pre.length ≤ p.length := by
  intro hay
  induction hay with
  | nil =>
    intro pre post h
    by_cases hn : needle = []
    · subst hn
      rw [splitFirst, if_pos rfl, Option.some.injEq, Prod.mk.injEq] at h
      obtain ⟨h1, h2⟩ := h
      subst h1; subst h2
      exact ⟨rfl, fun p q _ => Nat.zero_le _⟩
    · rw [splitFirst, if_neg hn] at h
      exact absurd h (by simp)
  | cons c rest ih =>
    intro pre post h
    rw [splitFirst] at h
    by_cases hp : needle.isPrefixOf (c :: rest)
    · rw [if_pos hp, Option.some.injEq, Prod.mk.injEq] at h
      obtain ⟨h1, h2⟩ := h
      subst h1; subst h2
      obtain ⟨t, ht⟩ := List.isPrefixOf_iff_prefix.mp hp
      constructor
      · rw [← ht, List.nil_append, List.drop_left]
      · intro p q _
        exact Nat.zero_le _
    · rw [if_neg hp] at h
      cases hsf : splitFirst needle rest with
      | none => rw [hsf] at h; exact absurd h (by simp)
      | some pq =>
        obtain ⟨pre1, post1⟩ := pq
        rw [hsf] at h
        simp only [Option.some.injEq, Prod.mk.injEq] at h
        obtain ⟨h1, h2⟩ := h
        subst h1; subst h2
        obtain ⟨hrest, hmin⟩ := ih pre1 post1 hsf
        constructor
        · simp [hrest]
        · intro p q hpq
          cases p with
          | nil =>
            exact absurd ( List.isPrefixOf_iff_prefix.mpr ⟨q, by simpa using hpq.symm⟩) hp
          | cons c1 p1 =>
            have hder : rest = p1 ++ needle ++ q := by
              simpa using congrArg List.tail hpq
            exact Nat.succ_le_succ (hmin p1 q hder)

theorem splitFirst_isSome_iff (needle : List Char) :
    ∀ hay, (splitFirst needle hay).isSome ↔ needle <:+: hay := by
  intro hay
  induction hay with
  | nil =>
    by_cases hn : needle = []
    · subst hn; simp [splitFirst]
    · rw [splitFirst, if_neg hn]
      simp only [Option.isSome_none, Bool.false_eq_true, false_iff]
      intro hinf
      obtain ⟨p, q, hpq⟩ := hinf
      have h1 := List.append_eq_nil.mp hpq
      exact hn (List.append_eq_nil.mp h1.1).2
  | cons c rest ih =>
    rw [splitFirst]
    by_cases hp : needle.isPrefixOf (c :: rest)
    · rw [if_pos hp]
      simp only [Option.isSome_some, true_iff]
      exact ( List.isPrefixOf_iff_prefix.mp hp).isInfix
    · rw [if_neg hp]
      constructor
      · intro h
        cases hsf : splitFirst needle rest with
        | none => rw [hsf] at h; simp at h
        | some pq =>
          have hrest : needle <:+: rest := ih.mp (by rw [hsf]; rfl)
          exact hrest.trans ( List.infix_cons List.infix_rfl)
      · intro h
        obtain ⟨p, q, hpq⟩ := h
        cases p with
        | nil =>
          exact absurd ( List.isPrefixOf_iff_prefix.mpr ⟨q, by simpa using hpq⟩) hp
        | cons c1 p1 =>
          have hrest : needle <:+: rest := ⟨p1, q, by simpa using congrArg List.tail hpq⟩
          have hsome := ih.mpr hrest
          cases hsf : splitFirst needle rest with
          | none => rw [hsf] at hsome; simp at hsome
          | some pq => simp

theorem jsIncludes_iff (needle hay : List Char) :
    jsIncludes needle hay = true ↔ needle <:+: hay := by
  rw [jsIncludes]
  exact splitFirst_isSome_iff needle hay

theorem substDollar_no_dollar (before matched after : List Char) :
    ∀ repl, '$' ∉ repl → substDollar before matched after repl = repl := by
  intro repl
  induction repl with
  | nil => intro _; rfl
  | cons c r ih =>
    intro h
    have hc : ¬ c = '$' := fun hc => h (hc ▸ List.mem_cons_self c r)
    have hr : '$' ∉ r := fun hm => h (List.mem_cons_of_mem c hm)
    rw [substDollar.eq_def]
    simp [hc, ih hr]

/-! ## TestRunnerService

`runTests`, `runBuild`, `runLint` each detect a command (none detected
means the stage passes vacuously), then run it through `execAsync`.  A
non-zero exit or timeout makes `execAsync` throw, which every stage turns
into `passed = false`.  On a zero-exit run, only `runTests` additionally
scans the combined stdout+stderr with `hasTestFailures`; `runBuild` and
`runLint` return `passed = true` unconditionally. -/

/-- Result record of one validation stage (`TestResult` in `types`). -/
structure TestResultM where
  passed : Bool
  output : List Char
  error : Option (List Char) := none
  deriving DecidableEq

/-- Outcome of one `execAsync` invocation: zero exit with captured stdout
and stderr, or a thrown error (non-zero exit / timeout) carrying the
captured streams and a message. -/
inductive ExecOutcome where
  | success (stdout stderr : List Char)
  | failure (stdout stderr message : List Char)
  deriving DecidableEq

/-- Substring test used to model JavaScript `RegExp.prototype.test` for
literal-text patterns. -/
def containsSub (needle hay : List Char) : Bool :=
  (splitFirst needle hay).isSome

/-- Case-insensitive substring test, modelling a regex with the `i` flag. -/
def containsCI (needle hay : List Char) : Bool :=
  containsSub (needle.map Char.toLower) (hay.map Char.toLower)

/-- Whitespace class of the JavaScript regex escape `\s` (ASCII part plus
no-break space and BOM). -/
def isJsWs (c : Char) : Bool :=
  c = ' ' ∨ c = '\t' ∨ c = '\n' ∨ c = '\r' ∨ c = '\x0b' ∨ c = '\x0c' ∨
    c = ' ' ∨ c = '﻿'

/-- Scan for the regex `/FAIL\s+/`: the literal `FAIL` followed by at
least one whitespace character. -/
def hasFAILws : List Char → Bool
  | [] => false
  | c :: rest =>
    (['F', 'A', 'I', 'L'].isPrefixOf (c :: rest) &&
      (match (c :: rest).drop 4 with
       | d :: _ => isJsWs d
       | [] => false)) ||
    hasFAILws rest

/-- Line terminators that the regex metacharacter `.` does not match. -/
def isJsLineTerm (c : Char) : Bool :=
  c = '\n' ∨ c = '\r' ∨ c = ' ' ∨ c = ' '

/-- Scan for the regex `/exit.*1/`: the literal `exit`, then a `1` later
on the same line. -/
def hasExitDot1 : List Char → Bool
  | [] => false
  | c :: rest =>
    (['e', 'x', 'i', 't'].isPrefixOf (c :: rest) &&
      (((c :: rest).drop 4).takeWhile (fun d => ¬ isJsLineTerm d)).contains '1') ||
    hasExitDot1 rest

/-- `TestRunnerService.hasTestFailures`: the failure-marker heuristic,
one disjunct per pattern in the `failurePatterns` array. -/
def hasTestFailures (output : List Char) : Bool :=
  hasFAILws output ||
  containsCI "failed".toList output || containsCI "failure".toList output ||
  containsCI "error".toList output || containsCI "errors".toList output ||
  containsSub ['✕'] output || containsSub ['✖'] output ||
  containsSub "failing".toList output ||
  hasExitDot1 output

/-- `TestRunnerService.runTests`: no detected command passes vacuously; a
zero-exit run passes exactly when no failure marker is found in the
combined output; a thrown run fails. -/
def runTestsService (cmd : Option (List Char)) (outcome : ExecOutcome) : TestResultM :=
  match cmd with
  | none => { passed := true, output := "No tests configured".toList }
  | some _ =>
    match outcome with
    | .success out err =>
      { passed := ! hasTestFailures (out ++ err), output := out ++ err }
    | .failure out err msg =>
      { passed := false, output := out ++ err, error := some msg }

/-- `TestRunnerService.runBuild`: a zero-exit run passes unconditionally
(no failure-marker scan); a thrown run fails. -/
def runBuildService (cmd : Option (List Char)) (outcome : ExecOutcome) : TestResultM :=
  match cmd with
  | none => { passed := true, output := "No build configured".toList }
  | some _ =>
    match outcome with
    | .success out err => { passed := true, output := out ++ err }
    | .failure out err msg =>
      { passed := false, output := out ++ err, error := some msg }

/-- `TestRunnerService.runLint`: a zero-exit run passes unconditionally
(no failure-marker scan); a thrown run fails. -/
def runLintService (cmd : Option (List Char)) (outcome : ExecOutcome) : TestResultM :=
  match cmd with
  | none => { passed := true, output := "No lint configured".toList }
  | some _ =>
    match outcome with
    | .success out err => { passed := true, output := out ++ err }
    | .failure out err msg =>
      { passed := false, output := out ++ err, error := some msg }

/-! ## The validation gate (`BugFixerAgent.runTests`)

Runs lint, then build, then test, returning the first failing stage's
result.  The returned trace records which stages actually executed. -/

/-- The three validation stages, in their fixed order. -/
inductive Stage where
  | lint
  | build
  | test
  deriving DecidableEq

/-- `BugFixerAgent.runTests`: the lint → build → test gate, with the
trace of executed stages. -/
def runTestsGate (lintR buildR testR : TestResultM) : TestResultM × List Stage :=
  if ¬ lintR.passed then (lintR, [Stage.lint])
  else if ¬ buildR.passed then (buildR, [Stage.lint, Stage.build])
  else (testR, [Stage.lint, Stage.build, Stage.test])

/-! ## The patch applier (`BugFixerAgent.applyChanges`)

The working tree is a map from file path to content; a missing file read
inside `applyChanges` is caught and treated as the empty string.  Each
`CodeChange` is processed in declared order: a non-empty `originalCode`
must occur verbatim in the current content (JavaScript
`content.includes`), else the whole apply throws
`Original code not found in <path>`; on a hit the first occurrence is
replaced (JavaScript `content.replace`) and the file is written.  An
empty `originalCode` writes `newCode` as the whole file.  The per-change
`git add`/`git commit` and the final `git push` subprocess calls are
modelled separately in the approve pipeline's environment. -/

/-- One code change of a proposal (`CodeChange` in `types`). -/
structure CodeChange where
  filePath : String
  originalCode : List Char
  newCode : List Char
  explanation : String
  deriving DecidableEq

/-- A working tree: association list from path to file content. -/
abbrev FS := List (String × List Char)

/-- Read a file, with a missing file read as the empty string (the
`catch {}` around `fs.readFile` in `applyChanges`). -/
def fsRead (fs : FS) (path : String) : List Char :=
  match List.find? (fun e => e.1 = path) fs with
  | some e => e.2
  | none => []

/-- Write a file (create or overwrite). -/
def fsWrite (fs : FS) (path : String) (content : List Char) : FS :=
  match List.find? (fun e => e.1 = path) fs with
  | some _ => fs.map (fun e => if e.1 = path then (e.1, content) else e)
  | none => fs ++ [(path, content)]

/-- `BugFixerAgent.applyChanges`, content part: fold the changes over the
working tree in declared order, recording each file write, aborting the
whole apply on the first change whose non-empty `originalCode` is not
found. -/
def applyChanges : List CodeChange → FS → Except String FS × List (String × List Char)
  | [], fs => (Except.ok fs, [])
  | ch :: rest, fs =>
    if ch.originalCode ≠ [] then
      let content := fsRead fs ch.filePath
      if jsIncludes ch.originalCode content then
        let newContent := jsReplace ch.originalCode ch.newCode content
        let result := applyChanges rest (fsWrite fs ch.filePath newContent)
        (result.1, (ch.filePath, newContent) :: result.2)
      else
        (Except.error ("Original code not found in " ++ ch.filePath), [])
    else
      let result := applyChanges rest (fsWrite fs ch.filePath ch.newCode)
      (result.1, (ch.filePath, ch.newCode) :: result.2)

/-! ## Proposal store and lifecycle (`BugFixerAgent`)

Proposals live in an in-memory map keyed by id.  `approveProposal` guards
on existence and `pending` status, sets `approved`, then runs the apply
pipeline: prepare repository, create branch, apply changes (content
writes, then git commit/push), validation gate, create PR, mark
`applied`, comment on the issue, confirmation email.  The `catch` block
forces the status to `rejected`, sends a failure email
(`sendConfirmationEmail` never throws: it swallows its own errors) and
re-raises.  A validation-gate failure is not an exception: it sends the
failure email, sets `rejected` and returns normally.

Each operation returns its thrown-or-ok result, the updated store, the
trace of status-field writes `(old, new)` in execution order, and the
trace of externally visible effects. -/

/-- Proposal status (`FixProposal.status` in `types`). -/
inductive PStatus where
  | pending
  | approved
  | rejected
  | applied
  deriving DecidableEq

/-- The string the agent interpolates into the invalid-state error. -/
def statusText : PStatus → String
  | .pending => "pending"
  | .approved => "approved"
  | .rejected => "rejected"
  | .applied => "applied"

/-- A fix proposal (`FixProposal` in `types`). -/
structure FixProposal where
  id : String
  issueNumber : Nat
  title : String
  description : String
  codeChanges : List CodeChange
  explanation : String
  confidence : Int
  createdAt : Nat
  status : PStatus
  deriving DecidableEq

/-- The in-memory proposal store (`Map<string, FixProposal>`), as an
association list keyed by id. -/
abbrev AgentState := List (String × FixProposal)

/-- `this.proposals.get(id)`. -/
def lookupProposal (st : AgentState) (pid : String) : Option FixProposal :=
  (List.find? (fun e => e.1 = pid) st).map (fun e => e.2)

/-- The mutation `proposal.status = s` on the stored proposal. -/
def setStatus (st : AgentState) (pid : String) (s : PStatus) : AgentState :=
  st.map (fun e => if e.1 = pid then (e.1, { e.2 with status := s }) else e)

/-- `this.proposals.delete(id)`. -/
def removeProposal (st : AgentState) (pid : String) : AgentState :=
  st.filter (fun e => ¬ e.1 = pid)

/-- `this.proposals.set(id, p)`: overwrite an existing key or append. -/
def storeSet (st : AgentState) (pid : String) (p : FixProposal) : AgentState :=
  match List.find? (fun e => e.1 = pid) st with
  | some _ => st.map (fun e => if e.1 = pid then (e.1, p) else e)
  | none => st ++ [(pid, p)]

/-- `BugFixerAgent.getPendingProposals`. -/
def getPendingProposals (st : AgentState) : List FixProposal :=
  (st.filter (fun e => e.2.status = PStatus.pending)).map (fun e => e.2)

/-- `BugFixerAgent.getProposal`. -/
def getProposal (st : AgentState) (pid : String) : Option FixProposal :=
  lookupProposal st pid

/-- `{number, url}` returned by `createPullRequest`. -/
structure PullRequestM where
  number : Nat
  url : String
  deriving DecidableEq

/-- Externally visible effects of the agent operations. -/
inductive Effect where
  | emailValidation (pid : String)
  | emailConfirmation (pid : String) (success : Bool)
  | emailNoFix
  | prCreated (pid : String)
  | commentAdded (pid : String)
  deriving DecidableEq

/-- Outcomes of the external collaborator calls made by one
`approveProposal` run: each `Except` is `error` when the corresponding
awaited call throws.  `fs` is the working tree after clone/pull;
`gitOps` covers the per-change `git add`/`git commit` and the final
`git push`; `lintR`/`buildR`/`testR` are the stage results delivered by
`TestRunnerService`. -/
structure ApproveEnv where
  prepareRepo : Except String Unit
  createBranch : Except String Unit
  fs : FS
  gitOps : Except String Unit
  lintR : TestResultM
  buildR : TestResultM
  testR : TestResultM
  createPR : Except String PullRequestM
  addComment : Except String Unit

/-- Result of one store operation: thrown-or-ok outcome, updated store,
trace of `(old, new)` status writes, trace of effects. -/
structure OpResult where
  outcome : Except String Unit
  state : AgentState
  writes : List (PStatus × PStatus)
  effects : List Effect

/-- The `catch (error)` block of `approveProposal`: force `rejected` from
the current status `cur`, send the failure email, re-raise. -/
def approveCatch (st : AgentState) (pid : String) (cur : PStatus) (e : String) : OpResult :=
  { outcome := Except.error e
    state := setStatus st pid PStatus.rejected
    writes := [(cur, PStatus.rejected)]
    effects := [Effect.emailConfirmation pid false] }

/-- `BugFixerAgent.approveProposal`. -/
def approveProposal (env : ApproveEnv) (st : AgentState) (pid : String) : OpResult :=
  match lookupProposal st pid with
  | none =>
    { outcome := Except.error ("Proposal " ++ pid ++ " not found")
      state := st, writes := [], effects := [] }
  | some p =>
    if p.status ≠ PStatus.pending then
      { outcome := Except.error ("Proposal " ++ pid ++ " is already " ++ statusText p.status)
        state := st, writes := [], effects := [] }
    else
      let st1 := setStatus st pid PStatus.approved
      let w1 := (p.status, PStatus.approved)
      match env.prepareRepo with
      | .error e =>
        let r := approveCatch st1 pid PStatus.approved e
        { r with writes := w1 :: r.writes }
      | .ok _ =>
      match env.createBranch with
      | .error e =>
        let r := approveCatch st1 pid PStatus.approved e
        { r with writes := w1 :: r.writes }
      | .ok _ =>
      match (applyChanges p.codeChanges env.fs).1 with
      | .error e =>
        let r := approveCatch st1 pid PStatus.approved e
        { r with writes := w1 :: r.writes }
      | .ok _ =>
      match env.gitOps with
      | .error e =>
        let r := approveCatch st1 pid PStatus.approved e
        { r with writes := w1 :: r.writes }
      | .ok _ =>
      let tr := runTestsGate env.lintR env.buildR env.testR
      if ¬ tr.1.passed then
        { outcome := Except.ok ()
          state := setStatus st1 pid PStatus.rejected
          writes := [w1, (PStatus.approved, PStatus.rejected)]
          effects := [Effect.emailConfirmation pid false] }
      else
      match env.createPR with
      | .error e =>
        let r := approveCatch st1 pid PStatus.approved e
        { r with writes := w1 :: r.writes }
      | .ok _ =>
      let st2 := setStatus st1 pid PStatus.applied
      let w2 := (PStatus.approved, PStatus.applied)
      match env.addComment with
      | .error e =>
        let r := approveCatch st2 pid PStatus.applied e
        { r with writes := w1 :: w2 :: r.writes
                 effects := Effect.prCreated pid :: r.effects }
      | .ok _ =>
        { outcome := Except.ok ()
          state := st2
          writes := [w1, w2]
          effects := [Effect.prCreated pid, Effect.commentAdded pid,
                      Effect.emailConfirmation pid true] }

/-- `BugFixerAgent.rejectProposal`: not-found guard, then set `rejected`
and delete the proposal, whatever its current status. -/
def rejectProposal (st : AgentState) (pid : String) : OpResult :=
  match lookupProposal st pid with
  | none =>
    { outcome := Except.error ("Proposal " ++ pid ++ " not found")
      state := st, writes := [], effects := [] }
  | some p =>
    { outcome := Except.ok ()
      state := removeProposal (setStatus st pid PStatus.rejected) pid
      writes := [(p.status, PStatus.rejected)]
      effects := [] }

/-! ## The HTTP route `POST /validate/:proposalId/approve` -/

/-- The JSON body fields the route can set. -/
structure RouteResponse where
  httpStatus : Nat
  success : Option Bool
  error : Option String
  message : Option String
  deriving DecidableEq

/-- The approve route: 400 without a repository, otherwise run
`approveProposal`; a thrown error is answered with 500 and an `error`
field, a normal return with 200 and a success message. -/
def routeApprove (env : ApproveEnv) (st : AgentState) (pid : String)
    (repo : Option String) : RouteResponse × AgentState :=
  match repo with
  | none =>
    ({ httpStatus := 400, success := none
       error := some "Missing repository URL (body.repo or query.repo)"
       message := none }, st)
  | some _ =>
    let r := approveProposal env st pid
    match r.outcome with
    | .ok _ =>
      ({ httpStatus := 200, success := some true, error := none
         message := some "Proposal approved and PR created" }, r.state)
    | .error e =>
      ({ httpStatus := 500, success := some false, error := some e
         message := none }, r.state)

/-! ## `LLMService.analyzeIssue` and the store step of
`BugFixerAgent.analyzeSingleIssue`

The model's reply is parsed into a JSON analysis (`none` models an empty
reply, a parse failure, or an API error, all of which degrade to a no-fix
result).  A parsed analysis with `shouldFix` false or `confidence < 70`
is downgraded to a no-fix result with no proposal; otherwise a
`FixProposal` with status `pending` is synthesized.
`analyzeSingleIssue` stores the proposal (keyed by its id) and sends a
validation email, or sends a no-fix email when there is no proposal. -/

/-- The JSON shape parsed out of the model's reply. -/
structure LLMAnalysis where
  shouldFix : Bool
  confidence : Int
  reason : String
  title : String
  description : String
  codeChanges : List CodeChange

/-- `AnalysisResult` in `types`. -/
structure AnalysisResultM where
  shouldFix : Bool
  confidence : Int
  reason : String
  proposal : Option FixProposal := none

/-- `LLMService.analyzeIssue` after the LLM reply is parsed: `parsed =
none` models the empty-reply / parse-failure / thrown branches, which
all return a no-fix result.  `newId` and `now` stand for
`generateProposalId()` and `new Date()`. -/
def analyzeIssue (issueNumber : Nat) (newId : String) (now : Nat)
    (parsed : Option LLMAnalysis) : AnalysisResultM :=
  match parsed with
  | none =>
    { shouldFix := false, confidence := 0
      reason := "Failed to get response from AI model" }
  | some a =>
    if ¬ a.shouldFix ∨ a.confidence < 70 then
      { shouldFix := false, confidence := a.confidence, reason := a.reason }
    else
      { shouldFix := true, confidence := a.confidence, reason := a.reason
        proposal := some
          { id := newId, issueNumber := issueNumber, title := a.title
            description := a.description, codeChanges := a.codeChanges
            explanation := a.description, confidence := a.confidence
            createdAt := now, status := PStatus.pending } }

/-- The decision part of `BugFixerAgent.analyzeSingleIssue`: with no fix
(or no proposal) send the no-fix email and store nothing; otherwise store
the proposal under its id and send the validation email.  Returns the
updated store, the value returned to the caller, and the effects. -/
def analyzeSingleIssue (st : AgentState) (result : AnalysisResultM) :
    AgentState × Option FixProposal × List Effect :=
  match result.shouldFix, result.proposal with
  | true, some p => (storeSet st p.id p, some p, [Effect.emailValidation p.id])
  | true, none => (st, none, [Effect.emailNoFix])
  | false, _ => (st, none, [Effect.emailNoFix])

/-! ## `BugFixerAgent.gatherRepositoryContext`

The context is a list of tagged blocks: up to eight well-known config
files each cut to their first 1500 characters, the repository root
structure, then the identified relevant source files — at most the first
15 of them (`filesToRead.slice(0, 15)`), each truncated to a 1500-char
head and a 1000-char tail around an explicit `characters truncated`
marker when longer than 3000 characters.  `identifyRelevantFiles` walks
the tracker API, so its result (and every fetched content) comes from the
environment; a fetch returning `none` models both a thrown fetch and a
missing file, and empty content is skipped (`if (content)`).  When the
root listing itself cannot be fetched, the outer catch returns the
sentinel text instead. -/

/-- What kind of block a context part is. -/
inductive BlockKind where
  | configFile
  | structureListing
  | sourceFile
  | sentinel
  deriving DecidableEq

/-- One `contextParts` entry: its kind, the path in its `=== path ===`
header, and its body text. -/
structure Block where
  kind : BlockKind
  tag : String
  body : List Char
  deriving DecidableEq

/-- The fixed `configFiles` list. -/
def configFilesList : List String :=
  ["README.md", "package.json", "Cargo.toml", "pyproject.toml", "setup.py",
   "go.mod", "tsconfig.json", "requirements.txt"]

/-- The head-and-tail truncation applied to a fetched source file:
content longer than 3000 characters keeps the first 1500 and last 1000
characters around an explicit `[N characters truncated]` marker. -/
def truncateMiddle (content : List Char) : List Char :=
  if 3000 < content.length then
    content.take 1500 ++
      "\n\n... [".toList ++ (Nat.repr (content.length - 2500)).toList ++
      " characters truncated] ...\n\n".toList ++
      content.drop (content.length - 1000)
  else content

/-- Collaborator responses feeding one `gatherRepositoryContext` run. -/
structure GatherEnv where
  getConfigContent : String → Option (List Char)
  rootContent : Option (List Char)
  identifiedFiles : List String
  getFileContent : String → Option (List Char)

/-- The config-file loop of `gatherRepositoryContext`: each well-known
config file that exists with non-empty content contributes a block cut to
its first 1500 characters. -/
def configBlocks (env : GatherEnv) : List Block :=
  configFilesList.filterMap (fun f =>
    match env.getConfigContent f with
    | some c =>
      if c ≠ [] then
        some { kind := BlockKind.configFile, tag := f, body := c.take 1500 }
      else none
    | none => none)

/-- The source-file loop of `gatherRepositoryContext`: at most the first
15 identified files (`filesToRead.slice(0, 15)`), each fetched and, when
non-empty, contributing a block with middle-truncated content. -/
def sourceBlocks (env : GatherEnv) : List Block :=
  (env.identifiedFiles.take 15).filterMap (fun f =>
    match env.getFileContent f with
    | some c =>
      if c ≠ [] then
        some { kind := BlockKind.sourceFile, tag := f, body := truncateMiddle c }
      else none
    | none => none)

/-- The `=== Repository Structure ===` block. -/
def structBlock (root : List Char) : Block :=
  { kind := BlockKind.structureListing, tag := "Repository Structure"
    body := root }

/-- `BugFixerAgent.gatherRepositoryContext` as a list of tagged blocks. -/
def gatherRepositoryContext (env : GatherEnv) : List Block :=
  match env.rootContent with
  | none => [{ kind := BlockKind.sentinel, tag := ""
               body := "Repository context unavailable".toList }]
  | some root => configBlocks env ++ [structBlock root] ++ sourceBlocks env

/-! ## Shared concrete fixtures for witnesses and counterexamples -/

/-- A passing stage result. -/
def okTest : TestResultM := { passed := true, output := [] }

/-- A failing stage result. -/
def failTest : TestResultM := { passed := false, output := "FAIL".toList }

/-- An approve environment in which every collaborator call succeeds. -/
def envAllOk : ApproveEnv :=
  { prepareRepo := Except.ok (), createBranch := Except.ok (), fs := []
    gitOps := Except.ok (), lintR := okTest, buildR := okTest, testR := okTest
    createPR := Except.ok { number := 7, url := "http://example/pr/7" }
    addComment := Except.ok () }

/-- The same environment with a failing lint stage. -/
def envLintFail : ApproveEnv := { envAllOk with lintR := failTest }

/-- A pending sample proposal with no code changes. -/
def sampleProposal : FixProposal :=
  { id := "p1", issueNumber := 42, title := "t", description := "d"
    codeChanges := [], explanation := "d", confidence := 85, createdAt := 0
    status := PStatus.pending }

/-- A store holding the pending sample proposal. -/
def stPending : AgentState := [("p1", sampleProposal)]

/-- A store holding the sample proposal in the terminal state `applied`. -/
def stApplied : AgentState :=
  [("p1", { sampleProposal with status := PStatus.applied })]

/-! ## Theorems for the claims -/

/-- C6: the validation gate runs lint, build, test in that fixed order,
short-circuiting on the first stage with `passed = false`: a failing lint
result leaves the trace at `[lint]` (build and test never execute), a
failing build result stops the trace before `test`, and the trace is
always an in-order prefix of `[lint, build, test]`. -/
theorem claim6_gate_order (l b t : TestResultM) :
    (runTestsGate l b t).2 <+: [Stage.lint, Stage.build, Stage.test] ∧
    (l.passed = false →
      (runTestsGate l b t).2 = [Stage.lint] ∧ (runTestsGate l b t).1 = l) ∧
    (b.passed = false → Stage.test ∉ (runTestsGate l b t).2) ∧
    (l.passed = true → b.passed = true →
      (runTestsGate l b t).2 = [Stage.lint, Stage.build, Stage.test] ∧
        (runTestsGate l b t).1 = t) := by
  cases hl : l.passed <;> cases hb : b.passed <;>
    simp [runTestsGate, hl, hb]

/-- Witness for C6 at a concrete failing lint stage. -/
theorem claim6_gate_order_witness :
    (runTestsGate failTest okTest okTest).2 = [Stage.lint] ∧
      (runTestsGate failTest okTest okTest).1 = failTest :=
  (claim6_gate_order failTest okTest okTest).2.1 rfl

/-- C3 counterexample: a zero-exit build run whose output contains the
failure marker `FAIL ` is reported with `passed = true` by `runBuild`,
although the failure-marker scan does flag that output; the claim that
every stage reports `passed = false` in this situation is therefore
false. -/
theorem claim3_counterexample :
    (runBuildService (some "npm run build".toList)
        (ExecOutcome.success "FAIL src/math.test.ts".toList [])).passed = true ∧
      hasTestFailures ("FAIL src/math.test.ts".toList ++ []) = true := by
  constructor
  · rfl
  · decide

/-- C3 amended: only the test stage applies the failure-marker scan — a
zero-exit test run fails exactly when a failure marker occurs in the
combined output, while zero-exit lint and build runs pass unconditionally
(their results never consult the scan); on a thrown run (non-zero exit or
timeout) every stage fails. -/
theorem claim3_amended (cmd out err : List Char) :
    ((runTestsService (some cmd) (ExecOutcome.success out err)).passed = false ↔
      hasTestFailures (out ++ err) = true) ∧
    (runBuildService (some cmd) (ExecOutcome.success out err)).passed = true ∧
    (runLintService (some cmd) (ExecOutcome.success out err)).passed = true ∧
    (∀ msg,
      (runTestsService (some cmd) (ExecOutcome.failure out err msg)).passed = false ∧
      (runBuildService (some cmd) (ExecOutcome.failure out err msg)).passed = false ∧
      (runLintService (some cmd) (ExecOutcome.failure out err msg)).passed = false) := by
  refine ⟨?_, rfl, rfl, fun msg => ⟨rfl, rfl, rfl⟩⟩
  simp [runTestsService]

/-- C7: a parsed analysis whose confidence is below 70 yields no
proposal, whatever `shouldFix` says; any proposal `analyzeIssue` does
return has confidence at least 70; consequently `analyzeSingleIssue`
either stores nothing or stores exactly the returned proposal, whose
confidence is at least 70. -/
theorem claim7_confidence_floor (issueNumber : Nat) (newId : String) (now : Nat) :
    (∀ a : LLMAnalysis, a.confidence < 70 →
      (analyzeIssue issueNumber newId now (some a)).proposal = none) ∧
    (∀ parsed p, (analyzeIssue issueNumber newId now parsed).proposal = some p →
      70 ≤ p.confidence) ∧
    (∀ parsed st,
      ((analyzeSingleIssue st (analyzeIssue issueNumber newId now parsed)).2.1 = none ∧
        (analyzeSingleIssue st (analyzeIssue issueNumber newId now parsed)).1 = st) ∨
      (∃ p, (analyzeSingleIssue st (analyzeIssue issueNumber newId now parsed)).2.1 = some p ∧
        (analyzeSingleIssue st (analyzeIssue issueNumber newId now parsed)).1 = storeSet st p.id p ∧
        70 ≤ p.confidence)) := by
  refine ⟨?_, ?_, ?_⟩
  · intro a h
    simp [analyzeIssue, Or.inr h]
  · intro parsed p h
    cases parsed with
    | none => simp [analyzeIssue] at h
    | some a =>
      by_cases hc : ¬ a.shouldFix ∨ a.confidence < 70
      · rw [analyzeIssue, if_pos hc] at h
        exact absurd h (by simp)
      · rw [analyzeIssue, if_neg hc] at h
        push_neg at hc
        simp only [Option.some.injEq] at h
        rw [← h]
        exact hc.2
  · intro parsed st
    cases parsed with
    | none => left; exact ⟨rfl, rfl⟩
    | some a =>
      by_cases hc : ¬ a.shouldFix ∨ a.confidence < 70
      · left
        rw [analyzeIssue, if_pos hc]
        exact ⟨rfl, rfl⟩
      · right
        rw [analyzeIssue, if_neg hc]
        push_neg at hc
        exact ⟨_, rfl, rfl, hc.2⟩

/-- Witness for C7 at a concrete low-confidence analysis that still asks
for a fix. -/
theorem claim7_confidence_floor_witness :
    (analyzeIssue 42 "p9" 0 (some
      { shouldFix := true, confidence := 30, reason := "r", title := "t"
        description := "d", codeChanges := [] })).proposal = none :=
  (claim7_confidence_floor 42 "p9" 0).1
    { shouldFix := true, confidence := 30, reason := "r", title := "t"
      description := "d", codeChanges := [] } (by decide)

/-- C8: `approveProposal` on an absent id throws a not-found error, and
on a stored non-pending proposal throws an invalid-state error; in both
cases the store is returned unchanged and the traces of status writes
and external effects are empty. -/
theorem claim8_guards (env : ApproveEnv) (st : AgentState) (pid : String) :
    (lookupProposal st pid = none →
      approveProposal env st pid =
        { outcome := Except.error ("Proposal " ++ pid ++ " not found")
          state := st, writes := [], effects := [] }) ∧
    (∀ p, lookupProposal st pid = some p → p.status ≠ PStatus.pending →
      approveProposal env st pid =
        { outcome := Except.error
            ("Proposal " ++ pid ++ " is already " ++ statusText p.status)
          state := st, writes := [], effects := [] }) := by
  constructor
  · intro h
    simp [approveProposal, h]
  · intro p hp hs
    simp [approveProposal, hp, hs]

/-- Witness for C8: an absent id on the empty store, and the applied
sample proposal for the invalid-state guard. -/
theorem claim8_guards_witness :
    approveProposal envAllOk [] "p1" =
      { outcome := Except.error ("Proposal " ++ "p1" ++ " not found")
        state := [], writes := [], effects := [] } ∧
    approveProposal envAllOk stApplied "p1" =
      { outcome := Except.error ("Proposal " ++ "p1" ++ " is already " ++
          statusText ({ sampleProposal with status := PStatus.applied }).status)
        state := stApplied, writes := [], effects := [] } :=
  ⟨(claim8_guards envAllOk [] "p1").1 rfl,
   (claim8_guards envAllOk stApplied "p1").2
     { sampleProposal with status := PStatus.applied } rfl (by decide)⟩

/-- Sequencing: after a successfully applied prefix of changes, applying
the concatenation continues from the resulting tree, and the write trace
is the concatenation of the two traces. -/
theorem applyChanges_append (rest : List CodeChange) :
    ∀ (pre : List CodeChange) (fs fs1 : FS) (w : List (String × List Char)),
      applyChanges pre fs = (Except.ok fs1, w) →
      applyChanges (pre ++ rest) fs =
        ((applyChanges rest fs1).1, w ++ (applyChanges rest fs1).2) := by
  intro pre
  induction pre with
  | nil =>
    intro fs fs1 w h
    simp only [applyChanges] at h
    simp only [Prod.mk.injEq, Except.ok.injEq] at h
    obtain ⟨h1, h2⟩ := h
    subst h1; subst h2
    simp
  | cons ch pre1 ih =>
    intro fs fs1 w h
    rw [List.cons_append]
    simp only [applyChanges] at h ⊢
    by_cases hne : ch.originalCode ≠ []
    · rw [if_pos hne] at h ⊢
      by_cases hinc : jsIncludes ch.originalCode (fsRead fs ch.filePath) = true
      · simp only [hinc, if_true] at h ⊢
        simp only [Prod.mk.injEq] at h
        obtain ⟨h1, h2⟩ := h
        have h3 : applyChanges pre1
            (fsWrite fs ch.filePath
              (jsReplace ch.originalCode ch.newCode (fsRead fs ch.filePath))) =
            (Except.ok fs1,
              (applyChanges pre1
                (fsWrite fs ch.filePath
                  (jsReplace ch.originalCode ch.newCode (fsRead fs ch.filePath)))).2) :=
          Prod.ext h1 rfl
        rw [ih _ _ _ h3, ← h2]
        simp
      · simp only [Bool.eq_false_iff.mpr hinc, if_false] at h
        simp at h
    · rw [if_neg hne] at h ⊢
      simp only [Prod.mk.injEq] at h
      obtain ⟨h1, h2⟩ := h
      have h3 : applyChanges pre1 (fsWrite fs ch.filePath ch.newCode) =
          (Except.ok fs1,
            (applyChanges pre1 (fsWrite fs ch.filePath ch.newCode)).2) :=
        Prod.ext h1 rfl
      rw [ih _ _ _ h3, ← h2]
      simp

/-- C4: a change whose non-empty `originalCode` is absent from the
current content of its target file (a missing file reading as the empty
string) makes the whole apply fail with an error naming the file path;
the file-write trace stays exactly the trace of the changes before it —
nothing is written for the failing change and no later change is ever
attempted. -/
theorem claim4_apply_abort (fs fs1 : FS) (pre : List CodeChange)
    (ch : CodeChange) (post : List CodeChange) (w : List (String × List Char))
    (hpre : applyChanges pre fs = (Except.ok fs1, w))
    (hne : ch.originalCode ≠ [])
    (habs : ¬ ch.originalCode <:+: fsRead fs1 ch.filePath) :
    applyChanges (pre ++ ch :: post) fs =
      (Except.error ("Original code not found in " ++ ch.filePath), w) ∧
    ch.filePath.data <:+:
      ("Original code not found in " ++ ch.filePath).data := by
  have hinc : jsIncludes ch.originalCode (fsRead fs1 ch.filePath) = false :=
    Bool.eq_false_iff.mpr (fun hb => habs ((jsIncludes_iff _ _).mp hb))
  constructor
  · rw [applyChanges_append (ch :: post) pre fs fs1 w hpre]
    simp only [applyChanges]
    rw [if_pos hne]
    simp [hinc]
  · exact ⟨"Original code not found in ".data, [], by simp [String.data_append]⟩

/-- Witness for C4: a change looking for `x` in a missing file aborts the
apply before the later change runs. -/
theorem claim4_apply_abort_witness :
    applyChanges
        ([] ++ ({ filePath := "a.ts", originalCode := "x".toList
                  newCode := "y".toList, explanation := "e" } : CodeChange) ::
          [{ filePath := "b.ts", originalCode := [], newCode := "z".toList
             explanation := "e2" }]) [] =
      (Except.error ("Original code not found in " ++ "a.ts"), []) :=
  (claim4_apply_abort [] [] []
    { filePath := "a.ts", originalCode := "x".toList
      newCode := "y".toList, explanation := "e" }
    [{ filePath := "b.ts", originalCode := [], newCode := "z".toList
       explanation := "e2" }]
    [] rfl (by decide) (by decide)).1

/-- C5 counterexample: `String.prototype.replace` interprets dollar
sequences in the replacement, so a `newCode` of `$&$&` is not inserted
verbatim: the change turns `abc` into `abbc`, not into the
first-occurrence-replaced-by-`newCode` content `a$&$&c`. -/
theorem claim5_counterexample :
    (applyChanges
        [{ filePath := "f.ts", originalCode := "b".toList
           newCode := "$&$&".toList, explanation := "e" }]
        [("f.ts", "abc".toList)]).1 =
      Except.ok [("f.ts", "abbc".toList)] ∧
    "abbc".toList ≠ "a".toList ++ "$&$&".toList ++ "c".toList := by
  constructor
  · rfl
  · decide

/-- C5 amended: for a change whose non-empty `originalCode` occurs in the
target file, `applyChanges` rewrites the file to
`pre ++ newCode ++ post` where `pre ++ originalCode ++ post` is the
decomposition at the *first* occurrence (every other occurrence lies in
`post` and is copied unchanged) — provided `newCode` contains no `$`,
the character that triggers ECMAScript replacement-template
substitution. -/
theorem claim5_amended (fs : FS) (ch : CodeChange)
    (hne : ch.originalCode ≠ []) (hnd : '$' ∉ ch.newCode)
    (hocc : ch.originalCode <:+: fsRead fs ch.filePath) :
    ∃ pre post, fsRead fs ch.filePath = pre ++ ch.originalCode ++ post ∧
      (∀ p q, fsRead fs ch.filePath = p ++ ch.originalCode ++ q →
        pre.length ≤ p.length) ∧
      applyChanges [ch] fs =
        (Except.ok (fsWrite fs ch.filePath (pre ++ ch.newCode ++ post)),
         [(ch.filePath, pre ++ ch.newCode ++ post)]) := by
  have hsome := (splitFirst_isSome_iff ch.originalCode (fsRead fs ch.filePath)).mpr hocc
  rw [Option.isSome_iff_exists] at hsome
  obtain ⟨⟨pre, post⟩, hsplit⟩ := hsome
  obtain ⟨hdec, hmin⟩ :=
    splitFirst_eq_some ch.originalCode (fsRead fs ch.filePath) pre post hsplit
  refine ⟨pre, post, hdec, hmin, ?_⟩
  have hinc : jsIncludes ch.originalCode (fsRead fs ch.filePath) = true := by
    rw [jsIncludes, hsplit]; rfl
  have hrepl : jsReplace ch.originalCode ch.newCode (fsRead fs ch.filePath) =
      pre ++ ch.newCode ++ post := by
    rw [jsReplace, hsplit]
    show pre ++ substDollar pre ch.originalCode post ch.newCode ++ post =
      pre ++ ch.newCode ++ post
    rw [substDollar_no_dollar pre ch.originalCode post ch.newCode hnd]
  simp only [applyChanges]
  rw [if_pos hne]
  simp [hinc, hrepl]

/-- Witness for C5 amended: replacing the first of two occurrences of
`b` in `abcb` with `Z` leaves the second occurrence unchanged. -/
theorem claim5_amended_witness :
    ∃ pre post, fsRead [("f.ts", "abcb".toList)] "f.ts" =
        pre ++ "b".toList ++ post ∧
      (∀ p q, fsRead [("f.ts", "abcb".toList)] "f.ts" =
        p ++ "b".toList ++ q → pre.length ≤ p.length) ∧
      applyChanges
          [{ filePath := "f.ts", originalCode := "b".toList
             newCode := "Z".toList, explanation := "e" }]
          [("f.ts", "abcb".toList)] =
        (Except.ok (fsWrite [("f.ts", "abcb".toList)] "f.ts"
            (pre ++ "Z".toList ++ post)),
         [("f.ts", pre ++ "Z".toList ++ post)]) :=
  claim5_amended [("f.ts", "abcb".toList)]
    { filePath := "f.ts", originalCode := "b".toList
      newCode := "Z".toList, explanation := "e" }
    (by decide) (by decide) (by decide)

/-- The truncation marker always contains the text
`characters truncated`. -/
theorem truncateMiddle_marker (c : List Char) (h : 3000 < c.length) :
    truncateMiddle c =
      c.take 1500 ++
        ("\n\n... [".toList ++ (Nat.repr (c.length - 2500)).toList ++
          " characters truncated] ...\n\n".toList) ++
        c.drop (c.length - 1000) ∧
    "characters truncated".toList <:+: truncateMiddle c := by
  constructor
  · rw [truncateMiddle, if_pos h]
    simp [List.append_assoc]
  · rw [truncateMiddle, if_pos h]
    have hsub : "characters truncated".toList <:+:
        " characters truncated] ...\n\n".toList := by decide
    obtain ⟨u, v, huv⟩ := hsub
    refine ⟨c.take 1500 ++ "\n\n... [".toList ++
        (Nat.repr (c.length - 2500)).toList ++ u,
      v ++ c.drop (c.length - 1000), ?_⟩
    rw [← huv]
    simp [List.append_assoc]

/-- Inverting membership in the fetch-and-tag `filterMap` used for both
the config-file and the source-file blocks of the context. -/
theorem mem_fetchBlocks (mk : String → List Char → Block)
    (g : String → Option (List Char)) (l : List String) (b : Block)
    (hb : b ∈ l.filterMap (fun f =>
      match g f with
      | some c => if c ≠ [] then some (mk f c) else none
      | none => none)) :
    ∃ f c, f ∈ l ∧ g f = some c ∧ c ≠ [] ∧ b = mk f c := by
  obtain ⟨f, hfl, hf⟩ := List.mem_filterMap.mp hb
  cases hc : g f with
  | none =>
    rw [hc] at hf
    exact absurd hf (by simp)
  | some c =>
    rw [hc] at hf
    replace hf : (if c ≠ [] then some (mk f c) else none) = some b := hf
    by_cases hce : c ≠ []
    · rw [if_pos hce, Option.some.injEq] at hf
      exact ⟨f, c, hfl, hc, hce, hf.symm⟩
    · rw [if_neg hce] at hf
      exact absurd hf (by simp)

/-- C9: the assembled context contains at most 15 source-file blocks;
every source-file block holds the (possibly truncated) fetched content of
its file, and when that content exceeds 3000 characters the block is a
1500-character head and a 1000-character tail around an explicit
`characters truncated` marker; every config-file block is cut to at most
1500 characters. -/
theorem claim9_context_caps (env : GatherEnv) :
    ((gatherRepositoryContext env).filter
        (fun b => b.kind = BlockKind.sourceFile)).length ≤ 15 ∧
    (∀ b ∈ gatherRepositoryContext env, b.kind = BlockKind.sourceFile →
      ∃ c, env.getFileContent b.tag = some c ∧ b.body = truncateMiddle c ∧
        (3000 < c.length →
          b.body = c.take 1500 ++
            ("\n\n... [".toList ++ (Nat.repr (c.length - 2500)).toList ++
              " characters truncated] ...\n\n".toList) ++
            c.drop (c.length - 1000) ∧
          "characters truncated".toList <:+: b.body)) ∧
    (∀ b ∈ gatherRepositoryContext env, b.kind = BlockKind.configFile →
      b.body.length ≤ 1500) := by
  cases hroot : env.rootContent with
  | none =>
    refine ⟨by simp [gatherRepositoryContext, hroot], ?_, ?_⟩ <;>
    · intro b hb hk
      simp only [gatherRepositoryContext, hroot, List.mem_singleton] at hb
      rw [hb] at hk
      exact absurd hk (by decide)
  | some root =>
    have hcfg : ∀ b ∈ configBlocks env, b.kind = BlockKind.configFile ∧
        ∃ c : List Char, b.body = c.take 1500 := by
      intro b hb
      obtain ⟨f, c, _, _, _, hbeq⟩ := mem_fetchBlocks
        (fun f c => { kind := BlockKind.configFile, tag := f, body := c.take 1500 })
        env.getConfigContent configFilesList b hb
      rw [hbeq]
      exact ⟨rfl, c, rfl⟩
    have hsf : ∀ b ∈ sourceBlocks env, b.kind = BlockKind.sourceFile ∧
        ∃ c, env.getFileContent b.tag = some c ∧ c ≠ [] ∧
          b.body = truncateMiddle c := by
      intro b hb
      obtain ⟨f, c, _, hgf, hce, hbeq⟩ := mem_fetchBlocks
        (fun f c => { kind := BlockKind.sourceFile, tag := f, body := truncateMiddle c })
        env.getFileContent (env.identifiedFiles.take 15) b hb
      rw [hbeq]
      exact ⟨rfl, c, hgf, hce, rfl⟩
    refine ⟨?_, ?_, ?_⟩
    · simp only [gatherRepositoryContext, hroot, List.filter_append,
        List.length_append]
      have h1 : (configBlocks env).filter
          (fun b => b.kind = BlockKind.sourceFile) = [] := by
        rw [List.filter_eq_nil_iff]
        intro b hb
        simp [(hcfg b hb).1]
      have h2 : ([structBlock root]).filter
          (fun b => b.kind = BlockKind.sourceFile) = [] := by
        simp [structBlock]
      rw [h1, h2]
      simp only [List.length_nil, Nat.zero_add, Nat.add_zero]
      have h3 := List.length_filter_le
        (fun b => b.kind = BlockKind.sourceFile) (sourceBlocks env)
      have h4 : (sourceBlocks env).length ≤ (env.identifiedFiles.take 15).length :=
        List.length_filterMap_le _ _
      have h5 : (env.identifiedFiles.take 15).length ≤ 15 :=
        List.length_take_le 15 _
      exact le_trans h3 (le_trans h4 h5)
    · intro b hb hk
      simp only [gatherRepositoryContext, hroot, List.mem_append,
        List.mem_singleton] at hb
      rcases hb with (hb | hb) | hb
      · exact absurd ((hcfg b hb).1 ▸ hk) (by decide)
      · rw [hb] at hk
        simp [structBlock] at hk
      · obtain ⟨_, c, hgf, _, hbody⟩ := hsf b hb
        refine ⟨c, hgf, hbody, fun hlen => ?_⟩
        obtain ⟨heq, hmark⟩ := truncateMiddle_marker c hlen
        exact ⟨hbody.trans heq, hbody ▸ hmark⟩
    · intro b hb hk
      simp only [gatherRepositoryContext, hroot, List.mem_append,
        List.mem_singleton] at hb
      rcases hb with (hb | hb) | hb
      · obtain ⟨_, c, hbody⟩ := hcfg b hb
        rw [hbody]
        exact List.length_take_le 1500 c
      · rw [hb] at hk
        simp [structBlock] at hk
      · exact absurd ((hsf b hb).1 ▸ hk) (by decide)

/-! ## Store lemmas and the characterization of `approveProposal` -/

theorem find?_map_keyFix (f : String × FixProposal → String × FixProposal)
    (hf : ∀ e, (f e).1 = e.1) (q : String) (st : List (String × FixProposal)) :
    List.find? (fun e => e.1 = q) (st.map f) =
      (List.find? (fun e => e.1 = q) st).map f := by
  induction st with
  | nil => rfl
  | cons e st1 ih =>
    by_cases he : e.1 = q
    · simp [List.find?_cons, hf e, he]
    · simp [List.find?_cons, hf e, he, ih]

theorem lookup_setStatus_self (st : AgentState) (pid : String) (s : PStatus) :
    lookupProposal (setStatus st pid s) pid =
      (lookupProposal st pid).map (fun p => { p with status := s }) := by
  rw [lookupProposal, setStatus,
    find?_map_keyFix _ (fun e => by by_cases h : e.1 = pid <;> simp [h]) pid st]
  cases hfd : List.find? (fun e => e.1 = pid) st with
  | none => simp [lookupProposal, hfd]
  | some e =>
    have he : e.1 = pid := by simpa using List.find?_some hfd
    simp [lookupProposal, hfd, he]

theorem lookup_setStatus_isSome (st : AgentState) (pid q : String) (s : PStatus) :
    (lookupProposal (setStatus st pid s) q).isSome =
      (lookupProposal st q).isSome := by
  rw [lookupProposal, setStatus,
    find?_map_keyFix _ (fun e => by by_cases h : e.1 = pid <;> simp [h]) q st,
    lookupProposal]
  cases List.find? (fun e => e.1 = q) st <;> rfl

theorem lookup_removeProposal_self (st : AgentState) (pid : String) :
    lookupProposal (removeProposal st pid) pid = none := by
  rw [lookupProposal, removeProposal]
  suffices h : List.find? (fun e => e.1 = pid)
      (st.filter (fun e => ¬ e.1 = pid)) = none by
    rw [h]; rfl
  induction st with
  | nil => rfl
  | cons e st1 ih =>
    by_cases he : e.1 = pid
    · simp [List.filter_cons, he, ih]
    · simp [List.filter_cons, List.find?_cons, he, ih]

theorem mem_getPendingProposals_status (st : AgentState) (x : FixProposal)
    (hx : x ∈ getPendingProposals st) : x.status = PStatus.pending := by
  obtain ⟨e, he, hex⟩ := List.mem_map.mp hx
  have := List.mem_filter.mp he
  rw [← hex]
  simpa using this.2

/-- Every run of `approveProposal` has one of five shapes: a guard
failure leaving everything untouched; a pipeline throw before the PR is
created (status forced pending → approved → rejected); a validation-gate
failure (same status path, but a normal return); a throw of the
issue-comment step after the PR (status pending → approved → applied →
rejected); or full success (pending → approved → applied). -/
theorem approve_cases (env : ApproveEnv) (st : AgentState) (pid : String) :
    ((lookupProposal st pid = none ∨
        (∃ p, lookupProposal st pid = some p ∧ p.status ≠ PStatus.pending)) ∧
      (∃ e, approveProposal env st pid =
        { outcome := Except.error e, state := st, writes := [], effects := [] })) ∨
    (∃ p, lookupProposal st pid = some p ∧ p.status = PStatus.pending ∧
      ((∃ e, approveProposal env st pid =
          { outcome := Except.error e
            state := setStatus (setStatus st pid PStatus.approved) pid PStatus.rejected
            writes := [(PStatus.pending, PStatus.approved),
                       (PStatus.approved, PStatus.rejected)]
            effects := [Effect.emailConfirmation pid false] }) ∨
        ((runTestsGate env.lintR env.buildR env.testR).1.passed = false ∧
          approveProposal env st pid =
          { outcome := Except.ok ()
            state := setStatus (setStatus st pid PStatus.approved) pid PStatus.rejected
            writes := [(PStatus.pending, PStatus.approved),
                       (PStatus.approved, PStatus.rejected)]
            effects := [Effect.emailConfirmation pid false] }) ∨
        (∃ e, approveProposal env st pid =
          { outcome := Except.error e
            state := setStatus (setStatus (setStatus st pid PStatus.approved) pid
              PStatus.applied) pid PStatus.rejected
            writes := [(PStatus.pending, PStatus.approved),
                       (PStatus.approved, PStatus.applied),
                       (PStatus.applied, PStatus.rejected)]
            effects := [Effect.prCreated pid, Effect.emailConfirmation pid false] }) ∨
        ((runTestsGate env.lintR env.buildR env.testR).1.passed = true ∧
          approveProposal env st pid =
          { outcome := Except.ok ()
            state := setStatus (setStatus st pid PStatus.approved) pid PStatus.applied
            writes := [(PStatus.pending, PStatus.approved),
                       (PStatus.approved, PStatus.applied)]
            effects := [Effect.prCreated pid, Effect.commentAdded pid,
                        Effect.emailConfirmation pid true] }))) := by
  cases hl : lookupProposal st pid with
  | none =>
    exact Or.inl ⟨Or.inl rfl, "Proposal " ++ pid ++ " not found",
      by simp [approveProposal, hl]⟩
  | some p =>
    by_cases hs : p.status ≠ PStatus.pending
    · exact Or.inl ⟨Or.inr ⟨p, rfl, hs⟩,
        "Proposal " ++ pid ++ " is already " ++ statusText p.status,
        by simp [approveProposal, hl, hs]⟩
    · rw [not_ne_iff] at hs
      refine Or.inr ⟨p, rfl, hs, ?_⟩
      cases hprep : env.prepareRepo with
      | error e =>
        exact Or.inl ⟨e, by simp [approveProposal, approveCatch, hl, hs, hprep]⟩
      | ok u =>
      cases hbr : env.createBranch with
      | error e =>
        exact Or.inl ⟨e, by simp [approveProposal, approveCatch, hl, hs, hprep, hbr]⟩
      | ok v =>
      cases happ : (applyChanges p.codeChanges env.fs).1 with
      | error e =>
        exact Or.inl ⟨e, by simp [approveProposal, approveCatch, hl, hs, hprep, hbr, happ]⟩
      | ok fs2 =>
      cases hgit : env.gitOps with
      | error e =>
        exact Or.inl ⟨e,
          by simp [approveProposal, approveCatch, hl, hs, hprep, hbr, happ, hgit]⟩
      | ok w =>
      by_cases hgate : (runTestsGate env.lintR env.buildR env.testR).1.passed
      · cases hpr : env.createPR with
        | error e =>
          exact Or.inl ⟨e, by simp [approveProposal, approveCatch, hl, hs, hprep, hbr,
            happ, hgit, hgate, hpr]⟩
        | ok pr =>
        cases hcm : env.addComment with
        | error e =>
          exact Or.inr (Or.inr (Or.inl ⟨e, by simp [approveProposal, approveCatch, hl,
            hs, hprep, hbr, happ, hgit, hgate, hpr, hcm]⟩))
        | ok x =>
          exact Or.inr (Or.inr (Or.inr ⟨hgate, by simp [approveProposal, approveCatch,
            hl, hs, hprep, hbr, happ, hgit, hgate, hpr, hcm]⟩))
      · refine Or.inr (Or.inl ⟨by simpa using hgate, ?_⟩)
        simp [approveProposal, hl, hs, hprep, hbr, happ, hgit, hgate]

/-- Any throwing stage of the pipeline — repository preparation, branch
creation, patch apply (including its git operations), or PR creation
after a passing gate — makes `approveProposal` re-raise an error. -/
theorem approve_error_of_failure (env : ApproveEnv) (st : AgentState)
    (pid : String) (p : FixProposal)
    (hl : lookupProposal st pid = some p) (hs : p.status = PStatus.pending)
    (hf : (∃ e, env.prepareRepo = Except.error e) ∨
      (∃ e, env.createBranch = Except.error e) ∨
      (∃ e, (applyChanges p.codeChanges env.fs).1 = Except.error e) ∨
      (∃ e, env.gitOps = Except.error e) ∨
      ((runTestsGate env.lintR env.buildR env.testR).1.passed = true ∧
        ∃ e, env.createPR = Except.error e)) :
    ∃ e, (approveProposal env st pid).outcome = Except.error e := by
  cases hprep : env.prepareRepo with
  | error e => exact ⟨e, by simp [approveProposal, approveCatch, hl, hs, hprep]⟩
  | ok u =>
  cases hbr : env.createBranch with
  | error e => exact ⟨e, by simp [approveProposal, approveCatch, hl, hs, hprep, hbr]⟩
  | ok v =>
  cases happ : (applyChanges p.codeChanges env.fs).1 with
  | error e =>
    exact ⟨e, by simp [approveProposal, approveCatch, hl, hs, hprep, hbr, happ]⟩
  | ok fs2 =>
  cases hgit : env.gitOps with
  | error e =>
    exact ⟨e, by simp [approveProposal, approveCatch, hl, hs, hprep, hbr, happ, hgit]⟩
  | ok w =>
  rcases hf with ⟨e, h⟩ | ⟨e, h⟩ | ⟨e, h⟩ | ⟨e, h⟩ | ⟨hpass, e, hpr⟩
  · rw [hprep] at h; exact absurd h (by simp)
  · rw [hbr] at h; exact absurd h (by simp)
  · rw [happ] at h; exact absurd h (by simp)
  · rw [hgit] at h; exact absurd h (by simp)
  · exact ⟨e, by simp [approveProposal, approveCatch, hl, hs, hprep, hbr, happ,
      hgit, hpass, hpr]⟩

/-- The lifecycle edges named by the specification. -/
def lifecycleEdges : List (PStatus × PStatus) :=
  [(PStatus.pending, PStatus.approved), (PStatus.approved, PStatus.applied),
   (PStatus.approved, PStatus.rejected), (PStatus.pending, PStatus.rejected)]

/-- C1 counterexample: `rejectProposal` on a proposal already in the
terminal state `applied` writes `applied → rejected` (before deleting
it), a transition outside the lifecycle edges — so an operation does move
a proposal out of a terminal state. -/
theorem claim1_counterexample :
    (rejectProposal stApplied "p1").writes =
      [(PStatus.applied, PStatus.rejected)] ∧
    (PStatus.applied, PStatus.rejected) ∉ lifecycleEdges := by
  constructor
  · decide
  · decide

/-- C1 amended: no status write ever targets `pending`; every write of
`approveProposal` is a lifecycle edge except that a failure of the
issue-comment step after the PR is created writes `applied → rejected`;
`rejectProposal` always writes `rejected` whatever the current status
(and then deletes the proposal). -/
theorem claim1_amended (env : ApproveEnv) (st : AgentState) (pid : String) :
    (∀ w ∈ (approveProposal env st pid).writes,
      w.2 ≠ PStatus.pending ∧
        (w ∈ lifecycleEdges ∨ w = (PStatus.applied, PStatus.rejected))) ∧
    (∀ w ∈ (rejectProposal st pid).writes,
      w.2 = PStatus.rejected ∧ w.2 ≠ PStatus.pending) := by
  constructor
  · rcases approve_cases env st pid with ⟨_, e, heq⟩ | ⟨p, _, _, hc⟩
    · intro w hw
      rw [heq] at hw
      simp at hw
    · rcases hc with ⟨e, heq⟩ | ⟨_, heq⟩ | ⟨e, heq⟩ | ⟨_, heq⟩
      · intro w hw
        rw [heq] at hw
        simp at hw
        rcases hw with rfl | rfl
        · decide
        · decide
      · intro w hw
        rw [heq] at hw
        simp at hw
        rcases hw with rfl | rfl
        · decide
        · decide
      · intro w hw
        rw [heq] at hw
        simp at hw
        rcases hw with rfl | rfl | rfl
        · decide
        · decide
        · decide
      · intro w hw
        rw [heq] at hw
        simp at hw
        rcases hw with rfl | rfl
        · decide
        · decide
  · cases hl : lookupProposal st pid with
    | none =>
      intro w hw
      simp [rejectProposal, hl] at hw
    | some p =>
      intro w hw
      simp [rejectProposal, hl] at hw
      rw [hw]
      exact ⟨rfl, by simp⟩

/-- Witness for C1 amended at the all-success run on the pending sample
proposal: its first status write is the edge pending → approved. -/
theorem claim1_amended_witness :
    (PStatus.pending, PStatus.approved).2 ≠ PStatus.pending ∧
      ((PStatus.pending, PStatus.approved) ∈ lifecycleEdges ∨
        (PStatus.pending, PStatus.approved) =
          (PStatus.applied, PStatus.rejected)) :=
  (claim1_amended envAllOk stPending "p1").1
    (PStatus.pending, PStatus.approved) (by decide)

/-- C2 counterexample: with a failing lint stage (a pipeline failure in
the validation step) and every other collaborator succeeding, the approve
route answers 200 with no `error` field, not 500 — the validation
failure is not re-raised. -/
theorem claim2_counterexample :
    envLintFail.lintR.passed = false ∧
    (routeApprove envLintFail stPending "p1" (some "r")).1.httpStatus = 200 ∧
    (routeApprove envLintFail stPending "p1" (some "r")).1.error = none := by
  refine ⟨rfl, ?_, ?_⟩
  · decide
  · decide

/-- C2 amended: a *throwing* pipeline stage — repository preparation,
branch creation, patch apply (content or git operations), or PR creation
after a passing gate — makes the approve route answer 500 with an
`error` field, after the proposal is forced to `rejected` and the
failure email is sent; a validation stage reporting `passed = false`
(with the stages before it succeeding) instead answers 200 with no
error field, although the proposal is rejected all the same. -/
theorem claim2_amended (env : ApproveEnv) (st : AgentState) (pid repo : String)
    (p : FixProposal) (hl : lookupProposal st pid = some p)
    (hs : p.status = PStatus.pending) :
    (((∃ e, env.prepareRepo = Except.error e) ∨
      (∃ e, env.createBranch = Except.error e) ∨
      (∃ e, (applyChanges p.codeChanges env.fs).1 = Except.error e) ∨
      (∃ e, env.gitOps = Except.error e) ∨
      ((runTestsGate env.lintR env.buildR env.testR).1.passed = true ∧
        ∃ e, env.createPR = Except.error e)) →
      ((routeApprove env st pid (some repo)).1.httpStatus = 500 ∧
       (∃ e, (routeApprove env st pid (some repo)).1.error = some e) ∧
       (∃ q, getProposal (routeApprove env st pid (some repo)).2 pid = some q ∧
         q.status = PStatus.rejected) ∧
       Effect.emailConfirmation pid false ∈
         (approveProposal env st pid).effects)) ∧
    (env.prepareRepo = Except.ok () → env.createBranch = Except.ok () →
      (∃ fs2, (applyChanges p.codeChanges env.fs).1 = Except.ok fs2) →
      env.gitOps = Except.ok () →
      (runTestsGate env.lintR env.buildR env.testR).1.passed = false →
      ((routeApprove env st pid (some repo)).1.httpStatus = 200 ∧
       (routeApprove env st pid (some repo)).1.error = none ∧
       (∃ q, getProposal (routeApprove env st pid (some repo)).2 pid = some q ∧
         q.status = PStatus.rejected))) := by
  constructor
  · intro hf
    obtain ⟨e0, hout⟩ := approve_error_of_failure env st pid p hl hs hf
    rcases approve_cases env st pid with ⟨hcond, e, heq⟩ | ⟨p', hl', hs', hcase⟩
    · exfalso
      rcases hcond with h | ⟨p', hl', hs'⟩
      · rw [hl] at h
        exact absurd h (by simp)
      · rw [hl] at hl'
        injection hl' with h'
        exact hs' (by rw [← h']; exact hs)
    · rw [hl] at hl'
      injection hl' with h'
      subst h'
      rcases hcase with ⟨e1, heq⟩ | ⟨hg, heq⟩ | ⟨e1, heq⟩ | ⟨hg, heq⟩
      · refine ⟨by simp [routeApprove, heq], ⟨e1, by simp [routeApprove, heq]⟩,
          ⟨{ p with status := PStatus.rejected }, ?_, rfl⟩, by rw [heq]; simp⟩
        have hstate : (routeApprove env st pid (some repo)).2 =
            setStatus (setStatus st pid PStatus.approved) pid PStatus.rejected := by
          simp [routeApprove, heq]
        rw [hstate, getProposal, lookup_setStatus_self, lookup_setStatus_self, hl]
        rfl
      · exfalso
        rw [heq] at hout
        simp at hout
      · refine ⟨by simp [routeApprove, heq], ⟨e1, by simp [routeApprove, heq]⟩,
          ⟨{ p with status := PStatus.rejected }, ?_, rfl⟩, by rw [heq]; simp⟩
        have hstate : (routeApprove env st pid (some repo)).2 =
            setStatus (setStatus (setStatus st pid PStatus.approved) pid
              PStatus.applied) pid PStatus.rejected := by
          simp [routeApprove, heq]
        rw [hstate, getProposal, lookup_setStatus_self, lookup_setStatus_self,
          lookup_setStatus_self, hl]
        rfl
      · exfalso
        rw [heq] at hout
        simp at hout
  · intro hprep hbr happ hgit hgate
    obtain ⟨fs2, happ'⟩ := happ
    have heq : approveProposal env st pid =
        { outcome := Except.ok ()
          state := setStatus (setStatus st pid PStatus.approved) pid PStatus.rejected
          writes := [(PStatus.pending, PStatus.approved),
                     (PStatus.approved, PStatus.rejected)]
          effects := [Effect.emailConfirmation pid false] } := by
      simp [approveProposal, hl, hs, hprep, hbr, happ', hgit, hgate]
    refine ⟨by simp [routeApprove, heq], by simp [routeApprove, heq],
      ⟨{ p with status := PStatus.rejected }, ?_, rfl⟩⟩
    have hstate : (routeApprove env st pid (some repo)).2 =
        setStatus (setStatus st pid PStatus.approved) pid PStatus.rejected := by
      simp [routeApprove, heq]
    rw [hstate, getProposal, lookup_setStatus_self, lookup_setStatus_self, hl]
    rfl

/-- The all-success environment with a throwing repository preparation. -/
def envPrepFail : ApproveEnv :=
  { envAllOk with prepareRepo := Except.error "git clone failed" }

/-- Witness for C2 amended: a throwing repository preparation on the
pending sample proposal yields a 500 with an error body. -/
theorem claim2_amended_witness :
    (routeApprove envPrepFail stPending "p1" (some "r")).1.httpStatus = 500 ∧
    (∃ e, (routeApprove envPrepFail stPending "p1" (some "r")).1.error = some e) ∧
    (∃ q, getProposal (routeApprove envPrepFail stPending "p1" (some "r")).2 "p1" =
      some q ∧ q.status = PStatus.rejected) ∧
    Effect.emailConfirmation "p1" false ∈
      (approveProposal envPrepFail stPending "p1").effects :=
  (claim2_amended envPrepFail stPending "p1" "r" sampleProposal (by decide) rfl).1
    (Or.inl ⟨"git clone failed", rfl⟩)

/-- C10: `approveProposal` never adds or removes a store entry (its
result state has exactly the ids of the input state); when it is called
on a stored pending proposal and the pipeline ends in failure — a thrown
stage or a normal return with a failing validation gate — the proposal
is still in the store with status `rejected`, so `getProposal` returns
it and `getPendingProposals` excludes it; `rejectProposal` deletes the
stored proposal from the store whatever its current status. -/
theorem claim10_store_retention (env : ApproveEnv) (st : AgentState) (pid : String) :
    (∀ q, (getProposal (approveProposal env st pid).state q).isSome =
      (getProposal st q).isSome) ∧
    (∀ p, lookupProposal st pid = some p → p.status = PStatus.pending →
      ((∃ e, (approveProposal env st pid).outcome = Except.error e) ∨
        ((approveProposal env st pid).outcome = Except.ok () ∧
          (runTestsGate env.lintR env.buildR env.testR).1.passed = false)) →
      ∃ q, getProposal (approveProposal env st pid).state pid = some q ∧
        q.status = PStatus.rejected ∧
        q ∉ getPendingProposals (approveProposal env st pid).state) ∧
    (∀ p, lookupProposal st pid = some p →
      (rejectProposal st pid).outcome = Except.ok () ∧
      getProposal (rejectProposal st pid).state pid = none) := by
  refine ⟨?_, ?_, ?_⟩
  · rcases approve_cases env st pid with ⟨_, e, heq⟩ | ⟨p, _, _, hc⟩
    · intro q
      rw [heq]
    · rcases hc with ⟨e, heq⟩ | ⟨_, heq⟩ | ⟨e, heq⟩ | ⟨_, heq⟩ <;>
      · intro q
        rw [heq]
        simp only [getProposal]
        repeat rw [lookup_setStatus_isSome]
  · intro p hl hs hfail
    rcases approve_cases env st pid with ⟨hcond, e, heq⟩ | ⟨p', hl', hs', hcase⟩
    · exfalso
      rcases hcond with h | ⟨p', hl', hs'⟩
      · rw [hl] at h
        exact absurd h (by simp)
      · rw [hl] at hl'
        injection hl' with h'
        exact hs' (by rw [← h']; exact hs)
    · rw [hl] at hl'
      injection hl' with h'
      subst h'
      have hnotpending : ∀ st2 : AgentState,
          getProposal st2 pid = some { p with status := PStatus.rejected } →
          ({ p with status := PStatus.rejected } : FixProposal) ∉
            getPendingProposals st2 := by
        intro st2 _ hmem
        have := mem_getPendingProposals_status st2 _ hmem
        simp at this
      rcases hcase with ⟨e1, heq⟩ | ⟨_, heq⟩ | ⟨e1, heq⟩ | ⟨hg, heq⟩
      · have hgp : getProposal (approveProposal env st pid).state pid =
            some { p with status := PStatus.rejected } := by
          rw [heq]
          simp only [getProposal]
          rw [lookup_setStatus_self, lookup_setStatus_self, hl]
          rfl
        exact ⟨_, hgp, rfl, hnotpending _ hgp⟩
      · have hgp : getProposal (approveProposal env st pid).state pid =
            some { p with status := PStatus.rejected } := by
          rw [heq]
          simp only [getProposal]
          rw [lookup_setStatus_self, lookup_setStatus_self, hl]
          rfl
        exact ⟨_, hgp, rfl, hnotpending _ hgp⟩
      · have hgp : getProposal (approveProposal env st pid).state pid =
            some { p with status := PStatus.rejected } := by
          rw [heq]
          simp only [getProposal]
          rw [lookup_setStatus_self, lookup_setStatus_self,
            lookup_setStatus_self, hl]
          rfl
        exact ⟨_, hgp, rfl, hnotpending _ hgp⟩
      · exfalso
        rcases hfail with ⟨e1, hout⟩ | ⟨_, hgf⟩
        · rw [heq] at hout
          simp at hout
        · rw [hg] at hgf
          simp at hgf
  · intro p hl
    constructor
    · simp [rejectProposal, hl]
    · have hstate : (rejectProposal st pid).state =
          removeProposal (setStatus st pid PStatus.rejected) pid := by
        simp [rejectProposal, hl]
      rw [hstate, getProposal, lookup_removeProposal_self]

/-- Witness for C10 at the failing-lint run on the pending sample
proposal: the rejected proposal is retained. -/
theorem claim10_store_retention_witness :
    ∃ q, getProposal (approveProposal envLintFail stPending "p1").state "p1" =
      some q ∧ q.status = PStatus.rejected ∧
      q ∉ getPendingProposals (approveProposal envLintFail stPending "p1").state :=
  (claim10_store_retention envLintFail stPending "p1").2.1 sampleProposal
    (by decide) rfl (Or.inr ⟨rfl, rfl⟩)

/-! ## Fixtures and witness for the context-assembly claim -/

/-- A 3001-character file content, above the truncation threshold. -/
def bigContent : List Char := List.replicate 3001 'x'

/-- A gather environment with one identified file holding `bigContent`. -/
def envBig : GatherEnv :=
  { getConfigContent := fun _ => none
    rootContent := some "file:big.ts".toList
    identifiedFiles := ["big.ts"]
    getFileContent := fun f => if f = "big.ts" then some bigContent else none }

/-- The source block `envBig` produces. -/
def bigBlock : Block :=
  { kind := BlockKind.sourceFile, tag := "big.ts"
    body := truncateMiddle bigContent }

/-- Witness for C9: the 3001-character file is included truncated, with
the marker. -/
theorem claim9_context_caps_witness :
    ∃ c, envBig.getFileContent bigBlock.tag = some c ∧
      bigBlock.body = truncateMiddle c ∧
      (3000 < c.length →
        bigBlock.body = c.take 1500 ++
          ("\n\n... [".toList ++ (Nat.repr (c.length - 2500)).toList ++
            " characters truncated] ...\n\n".toList) ++
          c.drop (c.length - 1000) ∧
        "characters truncated".toList <:+: bigBlock.body) :=
  (claim9_context_caps envBig).2.1 bigBlock
    (by rw [show gatherRepositoryContext envBig =
        [structBlock "file:big.ts".toList, bigBlock] from rfl]
        simp) rfl

end BugFixer
